import Mathlib

/-!
# Distributed-Systems-Simplified: replication node and shard router

A shallow embedding of `Read Replication/node.go`, `Sharding/node.go` and
`Sharding/router.go`.

* A Go `map[K]V` is an association list with at most one entry per key
  (`GoMap`): `m[k] = v` is `GoMap.put`, `v, ok := m[k]` is `GoMap.get`,
  `len(m)` is `GoMap.len`.
* A Go `string` is a Lean `String`; `[]byte(s)` is its UTF-8 encoding.
* A Go `int` is 64 bits wide (`intBits`); the conversion `int(x)` is the
  explicit two's complement wrap `toInt`.
* A run-time panic is a value of `Panic`; an operation that can panic returns
  `Except Panic _`.
* Locks, loggers and `time.Sleep` do not act on the data and are left out; the
  clock reading `time.Now().UnixNano()` is an argument of `Node.Write`.
-/

namespace DSS

/-! ## Go maps -/

/-- Go `map[K]V`: association list, one entry per key in every map built by `put`. -/
abbrev GoMap (κ : Type) (ν : Type) : Type := List (κ × ν)

namespace GoMap

variable {κ ν : Type} [DecidableEq κ]

/-- The map made by `make(map[K]V)`. -/
def empty : GoMap κ ν := []

/-- The lookup `v, ok := m[k]`: `none` when the key is absent. -/
def get : GoMap κ ν → κ → Option ν
  | [], _ => none
  | (a, b) :: t, k => if a = k then some b else get t k

/-- The assignment `m[k] = v`: replaces the entry of `k`, or adds one. -/
def put : GoMap κ ν → κ → ν → GoMap κ ν
  | [], k, v => [(k, v)]
  | (a, b) :: t, k, v => if a = k then (k, v) :: t else (a, b) :: put t k v

/-- The keys of the map. -/
def keys (m : GoMap κ ν) : List κ := m.map Prod.fst

/-- The builtin `len(m)`. -/
def len (m : GoMap κ ν) : Int := (m.length : Int)

end GoMap

/-! ## Machine integers and panics -/

/-- Width of Go's `int` (64-bit targets). -/
def intBits : Nat := 64

/-- The conversion `int(x)`: two's complement wrap to `intBits` bits. -/
def toInt (x : Int) : Int := (x + 2 ^ (intBits - 1)) % 2 ^ intBits - 2 ^ (intBits - 1)

/-- Run-time panics of the embedded code. -/
inductive Panic where
  | divideByZero
  | nilDereference
  deriving DecidableEq, Repr

/-! ## hash/crc32 (generic implementation of the Go standard library) -/

/-- The constant `crc32.IEEE`: the reversed IEEE polynomial. -/
def IEEE : Nat := 0xedb88320

/-- One round of `simpleMakeTable`: `if crc&1 == 1 { crc = (crc >> 1) ^ poly } else { crc >>= 1 }`. -/
def tableRound (poly crc : Nat) : Nat :=
  if crc % 2 = 1 then (crc / 2) ^^^ poly else crc / 2

/-- Entry `i` of the table built by `simpleMakeTable(poly)`: eight rounds from `i`. -/
def simpleMakeTable (poly i : Nat) : Nat := (tableRound poly)^[8] i

/-- Function `simpleUpdate(crc, tab, p)`:
`crc = ^crc; for _, v := range p { crc = tab[byte(crc)^v] ^ (crc >> 8) }; return ^crc`. -/
def simpleUpdate (crc : Nat) (tab : Nat → Nat) (p : List Nat) : Nat :=
  (p.foldl (fun c v => tab ((c % 256) ^^^ v) ^^^ (c / 256)) (crc ^^^ 0xffffffff)) ^^^ 0xffffffff

/-- UTF-8 encoding of one code point, as bytes. -/
def utf8Bytes (c : Char) : List Nat :=
  let n := c.toNat
  if n < 0x80 then [n]
  else if n < 0x800 then [0xc0 + n / 0x40, 0x80 + n % 0x40]
  else if n < 0x10000 then [0xe0 + n / 0x1000, 0x80 + n / 0x40 % 0x40, 0x80 + n % 0x40]
  else [0xf0 + n / 0x40000, 0x80 + n / 0x1000 % 0x40, 0x80 + n / 0x40 % 0x40, 0x80 + n % 0x40]

/-- The conversion `[]byte(key)`. -/
def bytes (s : String) : List Nat := s.data.flatMap utf8Bytes

/-- Function `crc32.ChecksumIEEE(data)`, a `uint32`. -/
def ChecksumIEEE (data : List Nat) : Nat := simpleUpdate 0 (simpleMakeTable IEEE) data

/-! ## Read Replication/node.go -/

/-- A Go channel `chan ReplicationEvent`, by identity. -/
abbrev Chan : Type := Nat

/-- ReplicationEvent represents a data change to be replicated. -/
structure ReplicationEvent where
  Key : String
  Value : String
  Timestamp : Int
  deriving DecidableEq, Repr

/-- Node represents a distributed system node (Leader or Follower). -/
structure Node where
  ID : Int
  IsLeader : Bool
  Data : GoMap String String
  replicas : List Chan
  deriving DecidableEq, Repr

/-- NewNode creates a new Node instance. -/
def NewNode (id : Int) (isLeader : Bool) : Node :=
  { ID := id, IsLeader := isLeader, Data := GoMap.empty, replicas := [] }

/-- AddReplica: `n.replicas = append(n.replicas, ch)`. -/
def Node.AddReplica (n : Node) (ch : Chan) : Node :=
  { n with replicas := n.replicas ++ [ch] }

/-- What a call of `Write` leaves behind: the returned error (`none` is `nil`),
the node after the call, and the sends `c <- event` handed to goroutines. -/
structure WriteResult where
  err : Option String
  node : Node
  dispatched : List (Chan × ReplicationEvent)
  deriving DecidableEq, Repr

/-- Write (Leader only) updates local state and broadcasts to followers.
`now` is the reading of `time.Now().UnixNano()`. -/
def Node.Write (n : Node) (key value : String) (now : Int) : WriteResult :=
  if !n.IsLeader then
    { err := some ("node " ++ toString n.ID ++ " is not a leader"), node := n, dispatched := [] }
  else
    let n1 := { n with Data := n.Data.put key value }
    let event : ReplicationEvent := { Key := key, Value := value, Timestamp := now }
    { err := none, node := n1, dispatched := n1.replicas.map (fun c => (c, event)) }

/-- Read returns the value for a given key: `val, ok := n.Data[key]`. -/
def Node.Read (n : Node) (key : String) : String × Bool :=
  match n.Data.get key with
  | some val => (val, true)
  | none => ("", false)

/-- Outcome of one `select` of the follower loop: `<-ctx.Done()` or `event := <-updates`. -/
inductive Select where
  | done
  | recv (event : ReplicationEvent)
  deriving DecidableEq, Repr

/-- The `for { select { ... } }` loop of `StartFollower` along a sequence of
select outcomes: a received event is stored with `n.Data[event.Key] = event.Value`,
cancellation returns. -/
def followerLoop (n : Node) : List Select → Node
  | [] => n
  | Select.done :: _ => n
  | Select.recv event :: rest =>
      followerLoop { n with Data := n.Data.put event.Key event.Value } rest

/-- StartFollower starts the listening loop for a follower node; on a leader it
returns at once. -/
def Node.StartFollower (n : Node) (updates : List Select) : Node :=
  if n.IsLeader then n else followerLoop n updates

/-- The public operations of a node. -/
inductive NodeOp where
  | addReplica (ch : Chan)
  | write (key value : String) (now : Int)
  | read (key : String)
  | startFollower (updates : List Select)
  deriving DecidableEq, Repr

/-- The node after one public operation. -/
def Node.step (n : Node) : NodeOp → Node
  | NodeOp.addReplica ch => n.AddReplica ch
  | NodeOp.write key value now => (n.Write key value now).node
  | NodeOp.read _ => n
  | NodeOp.startFollower updates => n.StartFollower updates

/-- The node after a sequence of public operations. -/
def Node.run (n : Node) (ops : List NodeOp) : Node := ops.foldl Node.step n

/-- The channels handed to `AddReplica` in a sequence of operations, in order. -/
def addedReplicas : List NodeOp → List Chan
  | [] => []
  | NodeOp.addReplica ch :: rest => ch :: addedReplicas rest
  | _ :: rest => addedReplicas rest

/-- The last event of a sequence that carries the key, if any. -/
def lastEventFor (key : String) (events : List ReplicationEvent) : Option ReplicationEvent :=
  events.reverse.find? (fun e => e.Key = key)

/-! ## Sharding/node.go -/

/-- ShardNode represents a single shard in the cluster. -/
structure ShardNode where
  ID : Int
  Data : GoMap String String
  deriving DecidableEq, Repr

/-- Constructor `NewShardNode(id)`. -/
def NewShardNode (id : Int) : ShardNode := { ID := id, Data := GoMap.empty }

/-- Write: `sn.Data[key] = value`. -/
def ShardNode.Write (sn : ShardNode) (key value : String) : ShardNode :=
  { sn with Data := sn.Data.put key value }

/-- Read: `val, ok := sn.Data[key]`. -/
def ShardNode.Read (sn : ShardNode) (key : String) : String × Bool :=
  match sn.Data.get key with
  | some val => (val, true)
  | none => ("", false)

/-- Stats returns the number of keys stored in this shard: `len(sn.Data)`. -/
def ShardNode.Stats (sn : ShardNode) : Int := sn.Data.len

/-! ## Sharding/router.go

The values of `shards map[int]*ShardNode` are pointers. Every pointer is made
by `NewShardNode` in `NewRouterComponent` and stored under one index only, so
the map holds the node itself and a write through the pointer found under an
index replaces the entry of that index. A nil pointer is `none`. -/

/-- RouterComponent routes client requests to the correct shard. -/
structure RouterComponent where
  shards : GoMap Int ShardNode
  count : Int
  deriving DecidableEq, Repr

/-- NewRouterComponent creates a new router with N shards:
`for i := 0; i < numShards; i++ { shards[i] = NewShardNode(i) }`. -/
def NewRouterComponent (numShards : Int) : RouterComponent :=
  { shards := (List.range numShards.toNat).foldl
      (fun shards i => shards.put (i : Int) (NewShardNode (i : Int))) GoMap.empty,
    count := numShards }

/-- GetShard calculates the target shard for a key:
`shardID := int(checksum) % r.count; return r.shards[shardID], shardID`.
Go's `%` truncates toward zero and panics on a zero divisor. -/
def RouterComponent.GetShard (r : RouterComponent) (key : String) :
    Except Panic (Option ShardNode × Int) :=
  let checksum := ChecksumIEEE (bytes key)
  if r.count = 0 then Except.error Panic.divideByZero
  else
    let shardID := Int.tmod (toInt (checksum : Int)) r.count
    Except.ok (r.shards.get shardID, shardID)

/-- AddKey routes a write request to the appropriate shard:
`shard, _ := r.GetShard(key); shard.Write(key, value)`. -/
def RouterComponent.AddKey (r : RouterComponent) (key value : String) :
    Except Panic RouterComponent :=
  match r.GetShard key with
  | Except.error p => Except.error p
  | Except.ok (none, _) => Except.error Panic.nilDereference
  | Except.ok (some shard, shardID) =>
      Except.ok { r with shards := r.shards.put shardID (shard.Write key value) }

/-- GetKey routes a read request to the appropriate shard:
`shard, _ := r.GetShard(key); return shard.Read(key)`. -/
def RouterComponent.GetKey (r : RouterComponent) (key : String) :
    Except Panic (String × Bool) :=
  match r.GetShard key with
  | Except.error p => Except.error p
  | Except.ok (none, _) => Except.error Panic.nilDereference
  | Except.ok (some shard, _) => Except.ok (shard.Read key)

/-- The calls `r.shards[i].Stats()` for the indices of a list, in order. -/
def statsOf (shards : GoMap Int ShardNode) : List Nat → Except Panic (List Int)
  | [] => Except.ok []
  | i :: rest =>
      match shards.get (i : Int) with
      | none => Except.error Panic.nilDereference
      | some shard =>
          match statsOf shards rest with
          | Except.error p => Except.error p
          | Except.ok counts => Except.ok (shard.Stats :: counts)

/-- PrintDistribution: `for i := 0; i < r.count; i++ { count := r.shards[i].Stats() ... }`;
the result is the list of the counts it prints. -/
def RouterComponent.PrintDistribution (r : RouterComponent) : Except Panic (List Int) :=
  statsOf r.shards (List.range r.count.toNat)

/-- The public operations of a router. -/
inductive RouterOp where
  | getShard (key : String)
  | addKey (key value : String)
  | getKey (key : String)
  | printDistribution
  deriving DecidableEq, Repr

/-- The router after one public operation, or the panic the operation raises. -/
def RouterComponent.step (r : RouterComponent) : RouterOp → Except Panic RouterComponent
  | RouterOp.getShard key => (r.GetShard key).map (fun _ => r)
  | RouterOp.addKey key value => r.AddKey key value
  | RouterOp.getKey key => (r.GetKey key).map (fun _ => r)
  | RouterOp.printDistribution => r.PrintDistribution.map (fun _ => r)

/-- The router after a sequence of public operations. -/
def RouterComponent.run (r : RouterComponent) : List RouterOp → Except Panic RouterComponent
  | [] => Except.ok r
  | op :: rest =>
      match r.step op with
      | Except.error p => Except.error p
      | Except.ok r1 => RouterComponent.run r1 rest

/-- The keys handed to `AddKey` in a sequence of operations. -/
def addedKeys : List RouterOp → List String
  | [] => []
  | RouterOp.addKey key _ :: rest => key :: addedKeys rest
  | _ :: rest => addedKeys rest

/-- The shard index the spec gives a key: checksum of its bytes modulo the shard count. -/
def shardIndex (N : Int) (key : String) : Int := (ChecksumIEEE (bytes key) : Int) % N

/-- The shards map after `n` rounds of the construction loop. -/
def newShards (n : Nat) : GoMap Int ShardNode :=
  (List.range n).foldl (fun shards i => shards.put (i : Int) (NewShardNode (i : Int)))
    GoMap.empty

/-- State invariant of a router with `N` shards that stores the key set `S`:
the count is `N`, the indices of the shards map are `0 .. N-1`, the shard under
index `i` has `ID = i`, and it holds, once each, the keys of `S` whose index is `i`. -/
def RouterInv (N : Int) (S : Finset String) (r : RouterComponent) : Prop :=
  r.count = N ∧
  (∀ i : Int, 0 ≤ i → i < N → ∃ sn, r.shards.get i = some sn ∧ sn.ID = i ∧
      sn.Data.keys.Nodup ∧ ∀ k, k ∈ sn.Data.keys ↔ (k ∈ S ∧ shardIndex N k = i)) ∧
  (∀ i : Int, ¬ (0 ≤ i ∧ i < N) → r.shards.get i = none)

/-! ## Lemmas on Go maps -/

namespace GoMap

variable {κ ν : Type} [DecidableEq κ]

theorem get_put_self (m : GoMap κ ν) (k : κ) (v : ν) : get (put m k v) k = some v := by
  induction m with
  | nil => simp [put, get]
  | cons p t ih =>
    obtain ⟨a, b⟩ := p
    by_cases h : a = k
    · simp [put, get, h]
    · simp [put, get, h, ih]

theorem get_put_ne (m : GoMap κ ν) (k k1 : κ) (v : ν) (hne : k1 ≠ k) :
    get (put m k v) k1 = get m k1 := by
  induction m with
  | nil => simp [put, get, Ne.symm hne]
  | cons p t ih =>
    obtain ⟨a, b⟩ := p
    by_cases h : a = k
    · subst h
      simp [put, get, Ne.symm hne]
    · by_cases h1 : a = k1
      · subst h1
        simp [put, get, h]
      · simp [put, get, h, h1, ih]

theorem get_isSome_iff (m : GoMap κ ν) (k : κ) : (get m k).isSome = true ↔ k ∈ keys m := by
  induction m with
  | nil => simp [get, keys]
  | cons p t ih =>
    obtain ⟨a, b⟩ := p
    by_cases h : a = k
    · simp [get, keys, h]
    · have ih1 : (get t k).isSome = true ↔ k ∈ List.map Prod.fst t := ih
      simp [get, keys, h, ih1, Ne.symm h]

theorem get_eq_none_iff (m : GoMap κ ν) (k : κ) : get m k = none ↔ k ∉ keys m := by
  rw [← get_isSome_iff]
  cases get m k <;> simp

theorem keys_put_of_mem (m : GoMap κ ν) (k : κ) (v : ν) (h : k ∈ keys m) :
    keys (put m k v) = keys m := by
  induction m with
  | nil => simp [keys] at h
  | cons p t ih =>
    obtain ⟨a, b⟩ := p
    by_cases ha : a = k
    · simp [put, keys, ha]
    · have ht : k ∈ keys t := by
        simp only [keys, List.map_cons, List.mem_cons] at h
        rcases h with h | h
        · exact absurd h.symm ha
        · exact h
      have ih1 : List.map Prod.fst (put t k v) = List.map Prod.fst t := ih ht
      simp [put, keys, ha, ih1]

theorem keys_put_of_not_mem (m : GoMap κ ν) (k : κ) (v : ν) (h : k ∉ keys m) :
    keys (put m k v) = keys m ++ [k] := by
  induction m with
  | nil => simp [put, keys]
  | cons p t ih =>
    obtain ⟨a, b⟩ := p
    simp only [keys, List.map_cons, List.mem_cons, not_or] at h
    have ha : ¬ a = k := fun e => h.1 e.symm
    have ih1 : List.map Prod.fst (put t k v) = List.map Prod.fst t ++ [k] := ih h.2
    simp [put, keys, ha, ih1]

theorem mem_keys_put (m : GoMap κ ν) (k k1 : κ) (v : ν) :
    k1 ∈ keys (put m k v) ↔ k1 = k ∨ k1 ∈ keys m := by
  by_cases h : k ∈ keys m
  · rw [keys_put_of_mem m k v h]
    constructor
    · exact Or.inr
    · rintro (rfl | h1)
      · exact h
      · exact h1
  · rw [keys_put_of_not_mem m k v h]
    simp [or_comm]

theorem nodup_keys_put (m : GoMap κ ν) (k : κ) (v : ν) (h : (keys m).Nodup) :
    (keys (put m k v)).Nodup := by
  by_cases hk : k ∈ keys m
  · rw [keys_put_of_mem m k v hk]
    exact h
  · rw [keys_put_of_not_mem m k v hk]
    exact List.Nodup.append h (List.nodup_singleton k) (by simpa using hk)

end GoMap

/-! ## Replication node: lemmas -/

theorem followerLoop_isLeader (n : Node) (updates : List Select) :
    (followerLoop n updates).IsLeader = n.IsLeader := by
  induction updates generalizing n with
  | nil => rfl
  | cons s rest ih =>
    cases s with
    | done => rfl
    | recv event => simp [followerLoop, ih]

theorem followerLoop_replicas (n : Node) (updates : List Select) :
    (followerLoop n updates).replicas = n.replicas := by
  induction updates generalizing n with
  | nil => rfl
  | cons s rest ih =>
    cases s with
    | done => rfl
    | recv event => simp [followerLoop, ih]

theorem followerLoop_recv_append (n : Node) (events : List ReplicationEvent)
    (e : ReplicationEvent) :
    (followerLoop n ((events ++ [e]).map Select.recv)).Data =
      (followerLoop n (events.map Select.recv)).Data.put e.Key e.Value := by
  induction events generalizing n with
  | nil => simp [followerLoop]
  | cons a rest ih =>
    simp only [List.cons_append, List.map_cons, followerLoop]
    exact ih _

theorem lastEventFor_append (key : String) (events : List ReplicationEvent)
    (e : ReplicationEvent) :
    lastEventFor key (events ++ [e]) =
      if e.Key = key then some e else lastEventFor key events := by
  simp [lastEventFor, List.find?_cons]
  split <;> simp_all

theorem followerLoop_read (n : Node) (events : List ReplicationEvent) (key : String) :
    (followerLoop n (events.map Select.recv)).Read key =
      match lastEventFor key events with
      | some e => (e.Value, true)
      | none => n.Read key := by
  induction events using List.reverseRecOn with
  | nil => simp [followerLoop, lastEventFor]
  | append_singleton es e ih =>
    rw [lastEventFor_append]
    by_cases h : e.Key = key
    · subst h
      simp only [Node.Read, followerLoop_recv_append, GoMap.get_put_self, if_true]
    · have h1 : key ≠ e.Key := fun c => h c.symm
      simp only [h, if_false]
      rw [← ih]
      simp only [Node.Read, followerLoop_recv_append, GoMap.get_put_ne _ _ _ _ h1]

theorem lastEventFor_of_no_later (e : ReplicationEvent) (before after : List ReplicationEvent)
    (h : ∀ x ∈ after, x.Key ≠ e.Key) :
    lastEventFor e.Key (before ++ e :: after) = some e := by
  induction after using List.reverseRecOn with
  | nil => simp [lastEventFor_append]
  | append_singleton es x ih =>
    have hx : x.Key ≠ e.Key := h x (by simp)
    have := lastEventFor_append e.Key (before ++ e :: es) x
    rw [List.append_assoc, List.cons_append] at this
    rw [this, if_neg hx]
    exact ih (fun y hy => h y (by simp [hy]))

theorem Node.step_follower (n : Node) (op : NodeOp) (h : n.IsLeader = false) :
    (n.step op).IsLeader = false ∧
      (n.step op).replicas = n.replicas ++ addedReplicas [op] := by
  cases op with
  | addReplica ch => simp [Node.step, Node.AddReplica, addedReplicas, h]
  | write key value now => simp [Node.step, Node.Write, addedReplicas, h]
  | read key => simp [Node.step, addedReplicas, h]
  | startFollower updates =>
    simp [Node.step, Node.StartFollower, addedReplicas, h, followerLoop_isLeader,
      followerLoop_replicas]

theorem addedReplicas_cons (op : NodeOp) (ops : List NodeOp) :
    addedReplicas (op :: ops) = addedReplicas [op] ++ addedReplicas ops := by
  cases op <;> simp [addedReplicas]

theorem Node.run_follower (n : Node) (ops : List NodeOp) (h : n.IsLeader = false) :
    (n.run ops).IsLeader = false ∧ (n.run ops).replicas = n.replicas ++ addedReplicas ops := by
  induction ops generalizing n with
  | nil => simp [Node.run, addedReplicas, h]
  | cons op rest ih =>
    obtain ⟨h1, h2⟩ := Node.step_follower n op h
    obtain ⟨h3, h4⟩ := ih (n.step op) h1
    have hr : n.run (op :: rest) = (n.step op).run rest := rfl
    rw [hr, addedReplicas_cons op rest, h4, h2, List.append_assoc]
    exact ⟨h3, rfl⟩

theorem addedReplicas_eq_nil (ops : List NodeOp)
    (h : ∀ op ∈ ops, ∀ ch, op ≠ NodeOp.addReplica ch) : addedReplicas ops = [] := by
  induction ops with
  | nil => rfl
  | cons op rest ih =>
    have hr := ih (fun o ho => h o (by simp [ho]))
    cases op with
    | addReplica ch => exact absurd rfl (h _ (by simp) ch)
    | write key value now => simpa [addedReplicas] using hr
    | read key => simpa [addedReplicas] using hr
    | startFollower updates => simpa [addedReplicas] using hr

/-! ## Checksum and index arithmetic -/

theorem tableRound_lt (crc : Nat) (h : crc < 2 ^ 32) : tableRound IEEE crc < 2 ^ 32 := by
  unfold tableRound
  split
  · exact Nat.xor_lt_two_pow (by omega) (by decide)
  · omega

theorem simpleMakeTable_lt (i : Nat) (h : i < 2 ^ 32) : simpleMakeTable IEEE i < 2 ^ 32 := by
  unfold simpleMakeTable
  simp only [Function.iterate_succ, Function.iterate_zero, Function.comp]
  exact tableRound_lt _ (tableRound_lt _ (tableRound_lt _ (tableRound_lt _
    (tableRound_lt _ (tableRound_lt _ (tableRound_lt _ (tableRound_lt _ h)))))))

theorem utf8Bytes_lt (c : Char) : ∀ b ∈ utf8Bytes c, b < 256 := by
  have hc : c.toNat < 0x110000 := by
    have hv := c.valid
    have : c.toNat = c.val.toNat := rfl
    rcases hv with hv | hv
    · omega
    · omega
  intro b hb
  unfold utf8Bytes at hb
  simp only at hb
  split_ifs at hb <;> simp only [List.mem_cons, List.mem_singleton, List.not_mem_nil, or_false] at hb <;> omega

theorem bytes_lt (s : String) : ∀ b ∈ bytes s, b < 256 := by
  intro b hb
  unfold bytes at hb
  rw [List.mem_flatMap] at hb
  obtain ⟨c, _, hc⟩ := hb
  exact utf8Bytes_lt c b hc

theorem foldl_update_lt (p : List Nat) (hp : ∀ b ∈ p, b < 256) (c : Nat) (hc : c < 2 ^ 32) :
    p.foldl (fun c v => simpleMakeTable IEEE ((c % 256) ^^^ v) ^^^ (c / 256)) c < 2 ^ 32 := by
  induction p generalizing c with
  | nil => simpa using hc
  | cons v rest ih =>
    simp only [List.foldl_cons]
    apply ih (fun b hb => hp b (by simp [hb]))
    have hv : v < 2 ^ 8 := hp v (by simp)
    have hi : (c % 256) ^^^ v < 2 ^ 8 := Nat.xor_lt_two_pow (by omega) hv
    exact Nat.xor_lt_two_pow (simpleMakeTable_lt _ (by omega)) (by omega)

theorem ChecksumIEEE_lt (s : String) : ChecksumIEEE (bytes s) < 2 ^ 32 := by
  unfold ChecksumIEEE simpleUpdate
  exact Nat.xor_lt_two_pow (foldl_update_lt _ (bytes_lt s) _ (by decide)) (by decide)

theorem toInt_checksum (s : String) :
    toInt (ChecksumIEEE (bytes s) : Int) = (ChecksumIEEE (bytes s) : Int) := by
  have h := ChecksumIEEE_lt s
  unfold toInt intBits
  have h0 : (0 : Int) ≤ (ChecksumIEEE (bytes s) : Int) := Int.ofNat_nonneg _
  have h1 : (ChecksumIEEE (bytes s) : Int) < 2 ^ 32 := by exact_mod_cast h
  norm_num at h1 ⊢
  omega

/-! ## Router: construction and routing -/

theorem shardIndex_bounds (N : Int) (key : String) (hN : 1 ≤ N) :
    0 ≤ shardIndex N key ∧ shardIndex N key < N := by
  unfold shardIndex
  exact ⟨Int.emod_nonneg _ (by omega), Int.emod_lt_of_pos _ (by omega)⟩

theorem GetShard_of_pos (r : RouterComponent) (key : String) (hN : 1 ≤ r.count) :
    r.GetShard key =
      Except.ok (r.shards.get (shardIndex r.count key), shardIndex r.count key) := by
  have h0 : ¬ r.count = 0 := by omega
  have ht : Int.tmod (ChecksumIEEE (bytes key) : Int) r.count = shardIndex r.count key :=
    Int.tmod_eq_emod (Int.ofNat_nonneg _) (by omega)
  simp only [RouterComponent.GetShard, h0, if_false, toInt_checksum, ht]

theorem newShards_succ (n : Nat) :
    newShards (n + 1) = (newShards n).put (n : Int) (NewShardNode (n : Int)) := by
  simp [newShards, List.range_succ, List.foldl_append]

theorem newShards_get (n : Nat) (i : Int) :
    (newShards n).get i = if 0 ≤ i ∧ i < n then some (NewShardNode i) else none := by
  induction n with
  | zero =>
    have : ¬ (0 ≤ i ∧ i < ((0 : Nat) : Int)) := by
      simp only [Nat.cast_zero]
      omega
    simp only [this, if_false]
    rfl
  | succ n ih =>
    rw [newShards_succ]
    by_cases h : i = (n : Int)
    · subst h
      rw [GoMap.get_put_self]
      have : (0 : Int) ≤ (n : Int) ∧ (n : Int) < ((n + 1 : Nat) : Int) := by
        constructor
        · exact Int.ofNat_nonneg n
        · push_cast
          omega
      simp only [this, and_self, if_true]
    · rw [GoMap.get_put_ne _ _ _ _ h, ih]
      have hiff : (0 ≤ i ∧ i < ((n + 1 : Nat) : Int)) ↔ (0 ≤ i ∧ i < (n : Int)) := by
        push_cast
        omega
      simp only [hiff]

theorem NewRouterComponent_shards (N : Int) :
    (NewRouterComponent N).shards = newShards N.toNat := rfl

theorem NewRouterComponent_get (N : Int) (i : Int) :
    (NewRouterComponent N).shards.get i =
      if 0 ≤ i ∧ i < N then some (NewShardNode i) else none := by
  rw [NewRouterComponent_shards, newShards_get]
  have hiff : (0 ≤ i ∧ i < ((N.toNat : Nat) : Int)) ↔ (0 ≤ i ∧ i < N) := by
    omega
  simp only [hiff]

theorem RouterInv_new (N : Int) : RouterInv N ∅ (NewRouterComponent N) := by
  refine ⟨rfl, ?_, ?_⟩
  · intro i h0 h1
    refine ⟨NewShardNode i, ?_, rfl, ?_, ?_⟩
    · rw [NewRouterComponent_get]
      simp only [h0, h1, and_self, if_true]
    · simp [NewShardNode, GoMap.keys, GoMap.empty]
    · intro k
      simp [NewShardNode, GoMap.keys, GoMap.empty]
  · intro i h
    rw [NewRouterComponent_get]
    simp only [h, if_false]

theorem RouterInv_AddKey (N : Int) (S : Finset String) (r : RouterComponent)
    (hN : 1 ≤ N) (h : RouterInv N S r) (key value : String) :
    ∃ sn, r.shards.get (shardIndex N key) = some sn ∧
      r.AddKey key value =
        Except.ok { r with shards := r.shards.put (shardIndex N key) (sn.Write key value) } ∧
      RouterInv N (insert key S)
        { r with shards := r.shards.put (shardIndex N key) (sn.Write key value) } := by
  obtain ⟨hc, hin, hout⟩ := h
  obtain ⟨hb0, hb1⟩ := shardIndex_bounds N key hN
  obtain ⟨sn, hget, hid, hnd, hkeys⟩ := hin _ hb0 hb1
  refine ⟨sn, hget, ?_, hc, ?_, ?_⟩
  · have hg := GetShard_of_pos r key (by omega)
    rw [hc] at hg
    simp only [RouterComponent.AddKey, hg, hget]
  · intro i h0 h1
    by_cases hi : i = shardIndex N key
    · subst hi
      refine ⟨sn.Write key value, GoMap.get_put_self _ _ _, hid, ?_, ?_⟩
      · exact GoMap.nodup_keys_put _ _ _ hnd
      · intro k
        simp only [ShardNode.Write, GoMap.mem_keys_put, hkeys, Finset.mem_insert]
        constructor
        · rintro (rfl | ⟨hS, hk⟩)
          · exact ⟨Or.inl rfl, rfl⟩
          · exact ⟨Or.inr hS, hk⟩
        · rintro ⟨rfl | hS, hk⟩
          · exact Or.inl rfl
          · exact Or.inr ⟨hS, hk⟩
    · obtain ⟨sni, hgi, hidi, hndi, hki⟩ := hin i h0 h1
      refine ⟨sni, ?_, hidi, hndi, ?_⟩
      · simp only [GoMap.get_put_ne _ _ _ _ hi, hgi]
      · intro k
        rw [hki k, Finset.mem_insert]
        constructor
        · rintro ⟨hS, hk⟩
          exact ⟨Or.inr hS, hk⟩
        · rintro ⟨rfl | hS, hk⟩
          · exact absurd hk.symm hi
          · exact ⟨hS, hk⟩
  · intro i hi
    have hne : i ≠ shardIndex N key := by
      intro e
      exact hi (e ▸ ⟨hb0, hb1⟩)
    simp only [GoMap.get_put_ne _ _ _ _ hne]
    exact hout i hi

theorem RouterInv_GetShard (N : Int) (S : Finset String) (r : RouterComponent)
    (hN : 1 ≤ N) (h : RouterInv N S r) (key : String) :
    ∃ sn, r.shards.get (shardIndex N key) = some sn ∧ sn.ID = shardIndex N key ∧
      r.GetShard key = Except.ok (some sn, shardIndex N key) := by
  obtain ⟨hc, hin, _⟩ := h
  obtain ⟨hb0, hb1⟩ := shardIndex_bounds N key hN
  obtain ⟨sn, hget, hid, _, _⟩ := hin _ hb0 hb1
  refine ⟨sn, hget, hid, ?_⟩
  have hg := GetShard_of_pos r key (by omega)
  rw [hc] at hg
  rw [hg, hget]

theorem RouterInv_GetKey (N : Int) (S : Finset String) (r : RouterComponent)
    (hN : 1 ≤ N) (h : RouterInv N S r) (key : String) :
    ∃ sn, r.shards.get (shardIndex N key) = some sn ∧
      r.GetKey key = Except.ok (sn.Read key) := by
  obtain ⟨sn, hget, _, hg⟩ := RouterInv_GetShard N S r hN h key
  refine ⟨sn, hget, ?_⟩
  simp only [RouterComponent.GetKey, hg]

theorem RouterInv_Stats (N : Int) (S : Finset String) (r : RouterComponent)
    (h : RouterInv N S r) (i : Nat) (hi : (i : Int) < N) :
    ∃ sn, r.shards.get (i : Int) = some sn ∧
      sn.Stats = ((S.filter (fun k => (shardIndex N k).toNat = i)).card : Int) := by
  obtain ⟨_, hin, _⟩ := h
  obtain ⟨sn, hget, _, hnd, hkeys⟩ := hin (i : Int) (Int.ofNat_nonneg i) hi
  refine ⟨sn, hget, ?_⟩
  have hfs : sn.Data.keys.toFinset = S.filter (fun k => (shardIndex N k).toNat = i) := by
    ext k
    rw [List.mem_toFinset, hkeys k, Finset.mem_filter]
    constructor
    · rintro ⟨hS, hk⟩
      exact ⟨hS, by rw [hk]; rfl⟩
    · rintro ⟨hS, hk⟩
      refine ⟨hS, ?_⟩
      have h0 : 0 ≤ shardIndex N k := by
        unfold shardIndex
        exact Int.emod_nonneg _ (by omega)
      omega
  rw [← hfs, List.toFinset_card_of_nodup hnd]
  simp [ShardNode.Stats, GoMap.len, GoMap.keys]

theorem RouterInv_statsOf (N : Int) (S : Finset String) (r : RouterComponent)
    (h : RouterInv N S r) (l : List Nat) (hl : ∀ i ∈ l, (i : Int) < N) :
    statsOf r.shards l =
      Except.ok (l.map (fun i => ((S.filter (fun k => (shardIndex N k).toNat = i)).card : Int))) := by
  induction l with
  | nil => rfl
  | cons i rest ih =>
    obtain ⟨sn, hget, hst⟩ := RouterInv_Stats N S r h i (hl i (by simp))
    have hr := ih (fun j hj => hl j (by simp [hj]))
    simp only [statsOf, hget, hr, hst, List.map_cons]

theorem sum_fibers (N : Int) (S : Finset String) (hN : 1 ≤ N) :
    ((List.range N.toNat).map
      (fun i => ((S.filter (fun k => (shardIndex N k).toNat = i)).card : Int))).sum =
      (S.card : Int) := by
  have hmaps : ∀ k ∈ S, (shardIndex N k).toNat ∈ Finset.range N.toNat := by
    intro k _
    obtain ⟨h0, h1⟩ := shardIndex_bounds N k hN
    rw [Finset.mem_range]
    omega
  have hcard := Finset.card_eq_sum_card_fiberwise hmaps
  have hr : (List.range N.toNat).toFinset = Finset.range N.toNat := by
    ext i
    simp
  rw [← List.sum_toFinset _ (List.nodup_range _), hr, hcard]
  push_cast
  rfl

theorem RouterInv_PrintDistribution (N : Int) (S : Finset String) (r : RouterComponent)
    (hN : 1 ≤ N) (h : RouterInv N S r) :
    ∃ counts, r.PrintDistribution = Except.ok counts ∧ counts.sum = (S.card : Int) ∧
      counts.length = N.toNat := by
  have hc : r.count = N := h.1
  refine ⟨_, ?_, sum_fibers N S hN, by simp⟩
  unfold RouterComponent.PrintDistribution
  rw [hc]
  apply RouterInv_statsOf N S r h
  intro i hi
  rw [List.mem_range] at hi
  omega

theorem addedKeys_cons (op : RouterOp) (ops : List RouterOp) :
    addedKeys (op :: ops) = addedKeys [op] ++ addedKeys ops := by
  cases op <;> simp [addedKeys]

theorem RouterInv_step (N : Int) (S : Finset String) (r : RouterComponent)
    (hN : 1 ≤ N) (h : RouterInv N S r) (op : RouterOp) :
    ∃ r1, r.step op = Except.ok r1 ∧ RouterInv N (S ∪ (addedKeys [op]).toFinset) r1 := by
  cases op with
  | getShard key =>
    obtain ⟨sn, _, _, hg⟩ := RouterInv_GetShard N S r hN h key
    exact ⟨r, by simp [RouterComponent.step, hg, Except.map], by simpa [addedKeys] using h⟩
  | addKey key value =>
    obtain ⟨sn, _, ha, hinv⟩ := RouterInv_AddKey N S r hN h key value
    refine ⟨_, ha, ?_⟩
    have hS : S ∪ (addedKeys [RouterOp.addKey key value]).toFinset = insert key S := by
      ext k
      simp [addedKeys, or_comm]
    rw [hS]
    exact hinv
  | getKey key =>
    obtain ⟨sn, _, hg⟩ := RouterInv_GetKey N S r hN h key
    exact ⟨r, by simp [RouterComponent.step, hg, Except.map], by simpa [addedKeys] using h⟩
  | printDistribution =>
    obtain ⟨counts, hp, _⟩ := RouterInv_PrintDistribution N S r hN h
    exact ⟨r, by simp [RouterComponent.step, hp, Except.map], by simpa [addedKeys] using h⟩

theorem RouterInv_run (N : Int) (S : Finset String) (r : RouterComponent)
    (hN : 1 ≤ N) (h : RouterInv N S r) (ops : List RouterOp) :
    ∃ r1, r.run ops = Except.ok r1 ∧ RouterInv N (S ∪ (addedKeys ops).toFinset) r1 := by
  induction ops generalizing r S with
  | nil => exact ⟨r, rfl, by simpa [addedKeys] using h⟩
  | cons op rest ih =>
    obtain ⟨r1, hs, hinv⟩ := RouterInv_step N S r hN h op
    obtain ⟨r2, hr, hinv2⟩ := ih _ r1 hinv
    refine ⟨r2, ?_, ?_⟩
    · simp only [RouterComponent.run, hs, hr]
    · rw [addedKeys_cons, List.toFinset_append, ← Finset.union_assoc]
      exact hinv2

theorem reachable_inv (N : Int) (hN : 1 ≤ N) (ops : List RouterOp) :
    ∃ r, (NewRouterComponent N).run ops = Except.ok r ∧
      RouterInv N (addedKeys ops).toFinset r := by
  obtain ⟨r, hr, hinv⟩ := RouterInv_run N ∅ _ hN (RouterInv_new N) ops
  exact ⟨r, hr, by simpa using hinv⟩

theorem followerLoop_done (n : Node) (events : List ReplicationEvent) (rest : List Select) :
    followerLoop n (events.map Select.recv ++ Select.done :: rest) =
      followerLoop n (events.map Select.recv) := by
  induction events generalizing n with
  | nil => rfl
  | cons e es ih =>
    simp only [List.map_cons, List.cons_append, followerLoop]
    exact ih _

theorem RouterInv_ids (N : Int) (S : Finset String) (r : RouterComponent)
    (h : RouterInv N S r) (i : Int) :
    (r.shards.get i).map ShardNode.ID = if 0 ≤ i ∧ i < N then some i else none := by
  obtain ⟨_, hin, hout⟩ := h
  by_cases hi : 0 ≤ i ∧ i < N
  · obtain ⟨sn, hget, hid, _⟩ := hin i hi.1 hi.2
    simp only [hget, hi, and_self, if_true, Option.map_some', hid]
  · simp only [hout i hi, hi, if_false, Option.map_none']

/-! ## The claims: replication node -/

/-- C1: on a node whose `IsLeader` is true, in any state (any map contents, any
registered channels), `Write(key, value)` returns a nil error and a `Read(key)`
on the node right after it returns `(value, true)`. -/
theorem leader_Write_then_Read (n : Node) (key value : String) (now : Int)
    (h : n.IsLeader = true) :
    (n.Write key value now).err = none ∧
      (n.Write key value now).node.Read key = (value, true) := by
  simp [Node.Write, Node.Read, h, GoMap.get_put_self]

theorem leader_Write_then_Read_witness :
    ((NewNode 1 true).AddReplica 0).IsLeader = true ∧
      (((NewNode 1 true).AddReplica 0).Write "test_key" "test_val" 17).err = none ∧
      (((NewNode 1 true).AddReplica 0).Write "test_key" "test_val" 17).node.Read "test_key" =
        ("test_val", true) :=
  ⟨rfl, leader_Write_then_Read ((NewNode 1 true).AddReplica 0) "test_key" "test_val" 17 rfl⟩

/-- C2: on a node whose `IsLeader` is false, in any state, `Write(key, value)`
returns the non-nil error "node ID is not a leader", leaves the node (so its
`Data` map and the result of every `Read`) as it was, and dispatches no
replication event. -/
theorem follower_Write_rejected (n : Node) (key value : String) (now : Int)
    (h : n.IsLeader = false) :
    (n.Write key value now).err = some ("node " ++ toString n.ID ++ " is not a leader") ∧
      (n.Write key value now).err ≠ none ∧
      (n.Write key value now).node = n ∧
      (n.Write key value now).node.Data = n.Data ∧
      (∀ k, (n.Write key value now).node.Read k = n.Read k) ∧
      (n.Write key value now).dispatched = [] := by
  simp [Node.Write, h]

theorem follower_Write_rejected_witness :
    (((NewNode 2 false).AddReplica 5).StartFollower
        [Select.recv ⟨"a", "b", 3⟩]).IsLeader = false ∧
      ((((NewNode 2 false).AddReplica 5).StartFollower
        [Select.recv ⟨"a", "b", 3⟩]).Write "k" "v" 9).err =
          some "node 2 is not a leader" ∧
      ((((NewNode 2 false).AddReplica 5).StartFollower
        [Select.recv ⟨"a", "b", 3⟩]).Write "k" "v" 9).node.Data = [("a", "b")] ∧
      ((((NewNode 2 false).AddReplica 5).StartFollower
        [Select.recv ⟨"a", "b", 3⟩]).Write "k" "v" 9).dispatched = [] :=
  have h := follower_Write_rejected
    (((NewNode 2 false).AddReplica 5).StartFollower [Select.recv ⟨"a", "b", 3⟩]) "k" "v" 9 rfl
  ⟨rfl, h.1, h.2.2.2.1, h.2.2.2.2.2⟩

/-- C5: on a follower node, after the loop of `StartFollower` has applied a
sequence of received events (whether or not it is cancelled afterwards), the
`Read` of every key returns the `Value` of the last event of the sequence that
carries the key, or what it returned before when no event carries it; the
`Timestamp` fields play no part. In particular, when `E1` and then `E2` with
the same `Key` are applied and no later event carries that key, `Read(Key)`
returns `(E2.Value, true)`. -/
theorem follower_last_event_wins (n : Node) (h : n.IsLeader = false) :
    (∀ (events : List ReplicationEvent) (key : String),
      (n.StartFollower (events.map Select.recv)).Read key =
        match lastEventFor key events with
        | some e => (e.Value, true)
        | none => n.Read key) ∧
    (∀ (events : List ReplicationEvent) (rest : List Select) (key : String),
      (n.StartFollower (events.map Select.recv ++ Select.done :: rest)).Read key =
        (n.StartFollower (events.map Select.recv)).Read key) ∧
    (∀ (E1 E2 : ReplicationEvent) (before between after : List ReplicationEvent),
      E1.Key = E2.Key → (∀ x ∈ after, x.Key ≠ E2.Key) →
      (n.StartFollower ((before ++ E1 :: (between ++ E2 :: after)).map Select.recv)).Read E2.Key =
        (E2.Value, true)) := by
  refine ⟨?_, ?_, ?_⟩
  · intro events key
    simp only [Node.StartFollower, h, Bool.false_eq_true, if_false]
    exact followerLoop_read n events key
  · intro events rest key
    simp only [Node.StartFollower, h, Bool.false_eq_true, if_false, followerLoop_done]
  · intro E1 E2 before between after _ hafter
    simp only [Node.StartFollower, h, Bool.false_eq_true, if_false]
    rw [followerLoop_read]
    have hl : lastEventFor E2.Key (before ++ E1 :: (between ++ E2 :: after)) = some E2 := by
      have := lastEventFor_of_no_later E2 (before ++ E1 :: between) after hafter
      simpa using this
    rw [hl]

theorem follower_last_event_wins_witness :
    (NewNode 2 false).IsLeader = false ∧
      ((NewNode 2 false).StartFollower
        [Select.recv ⟨"k", "new", 200⟩, Select.recv ⟨"other", "x", 5⟩,
          Select.recv ⟨"k", "old", 100⟩, Select.recv ⟨"z", "y", 7⟩]).Read "k" = ("old", true) :=
  ⟨rfl, (follower_last_event_wins (NewNode 2 false) rfl).2.2
    ⟨"k", "new", 200⟩ ⟨"k", "old", 100⟩ [] [⟨"other", "x", 5⟩] [⟨"z", "y", 7⟩] rfl
    (by decide)⟩

/-- C7, as the claim states it, fails: `AddReplica` on a follower registers the channel. -/
theorem follower_AddReplica_registers :
    ((NewNode 2 false).run [NodeOp.addReplica 0]).IsLeader = false ∧
      ((NewNode 2 false).run [NodeOp.addReplica 0]).replicas = [0] ∧
      ((NewNode 2 false).run [NodeOp.addReplica 0]).replicas ≠ [] := by
  decide

/-- C7, amended: after any sequence of public operations on a node built with
`isLeader = false`, the node is still a follower and its replicas list holds
exactly the channels handed to `AddReplica`, in order; so it is empty in every
state reached by `Write`, `Read` and `StartFollower` alone, and a follower's
`Write` dispatches to no channel. -/
theorem follower_replicas_are_added (id : Int) (ops : List NodeOp) :
    ((NewNode id false).run ops).IsLeader = false ∧
      ((NewNode id false).run ops).replicas = addedReplicas ops ∧
      ((∀ op ∈ ops, ∀ ch, op ≠ NodeOp.addReplica ch) →
        ((NewNode id false).run ops).replicas = []) ∧
      (∀ key value now, (((NewNode id false).run ops).Write key value now).dispatched = []) := by
  obtain ⟨h1, h2⟩ := Node.run_follower (NewNode id false) ops rfl
  have h3 : ((NewNode id false).run ops).replicas = addedReplicas ops := by
    rw [h2]
    rfl
  refine ⟨h1, h3, ?_, ?_⟩
  · intro hno
    rw [h3, addedReplicas_eq_nil ops hno]
  · intro key value now
    simp [Node.Write, h1]

theorem follower_replicas_are_added_witness :
    (∀ op ∈ [NodeOp.write "k" "v" 1, NodeOp.read "k",
        NodeOp.startFollower [Select.recv ⟨"k", "w", 2⟩, Select.done]],
        ∀ ch, op ≠ NodeOp.addReplica ch) ∧
      ((NewNode 2 false).run [NodeOp.write "k" "v" 1, NodeOp.read "k",
        NodeOp.startFollower [Select.recv ⟨"k", "w", 2⟩, Select.done]]).replicas = [] :=
  have hno : ∀ op ∈ [NodeOp.write "k" "v" 1, NodeOp.read "k",
      NodeOp.startFollower [Select.recv ⟨"k", "w", 2⟩, Select.done]],
      ∀ ch, op ≠ NodeOp.addReplica ch := by
    intro op hop ch
    simp only [List.mem_cons, List.mem_singleton, List.not_mem_nil, or_false] at hop
    rcases hop with rfl | rfl | rfl <;> exact fun e => NodeOp.noConfusion e
  ⟨hno, (follower_replicas_are_added 2 _).2.2.1 hno⟩

/-! ## The claims: shard router -/

/-- C3: for a router built by `NewRouterComponent(N)` with `N >= 1`, fresh or
after any sequence of public operations, and for every key, `GetShard(key)`
returns the index `ChecksumIEEE(bytes of key) mod N`, which lies in `0 .. N-1`,
together with a present shard, the one built with `ID` equal to that index. -/
theorem GetShard_index (N : Int) (hN : 1 ≤ N) (key : String) (ops : List RouterOp) :
    shardIndex N key = (ChecksumIEEE (bytes key) : Int) % N ∧
      0 ≤ shardIndex N key ∧ shardIndex N key < N ∧
      (NewRouterComponent N).GetShard key =
        Except.ok (some (NewShardNode (shardIndex N key)), shardIndex N key) ∧
      (NewShardNode (shardIndex N key)).ID = shardIndex N key ∧
      ∃ r sn, (NewRouterComponent N).run ops = Except.ok r ∧
        r.GetShard key = Except.ok (some sn, shardIndex N key) ∧
        r.shards.get (shardIndex N key) = some sn ∧ sn.ID = shardIndex N key := by
  obtain ⟨hb0, hb1⟩ := shardIndex_bounds N key hN
  refine ⟨rfl, hb0, hb1, ?_, rfl, ?_⟩
  · have hg := GetShard_of_pos (NewRouterComponent N) key hN
    have hc : (NewRouterComponent N).count = N := rfl
    rw [hc, NewRouterComponent_get] at hg
    simpa only [hb0, hb1, and_self, if_true] using hg
  · obtain ⟨r, hr, hinv⟩ := reachable_inv N hN ops
    obtain ⟨sn, hget, hid, hg⟩ := RouterInv_GetShard N _ r hN hinv key
    exact ⟨r, sn, hr, hg, hget, hid⟩

set_option maxRecDepth 100000 in
theorem GetShard_index_witness :
    (1 : Int) ≤ 4 ∧ ChecksumIEEE (bytes "user:1") = 2074460802 ∧
      (NewRouterComponent 4).GetShard "user:1" = Except.ok (some (NewShardNode 2), 2) :=
  have h := (GetShard_index 4 (by decide) "user:1" []).2.2.2.1
  have hi : shardIndex 4 "user:1" = 2 := by decide
  ⟨by decide, by decide, hi ▸ h⟩

/-- C4: for a router with `N >= 1` shards in any state reached from
`NewRouterComponent(N)` by public operations, `AddKey(key, value)` succeeds,
`GetKey(key)` after it returns `(value, true)`, `GetKey` of every other key
returns what it returned before the `AddKey`, and `GetKey` of a key that no
`AddKey` of the history carried returns found = false. -/
theorem AddKey_then_GetKey (N : Int) (hN : 1 ≤ N) (ops : List RouterOp)
    (key value : String) :
    ∃ r r1, (NewRouterComponent N).run ops = Except.ok r ∧
      r.AddKey key value = Except.ok r1 ∧
      r1.GetKey key = Except.ok (value, true) ∧
      (∀ k1, k1 ≠ key → r1.GetKey k1 = r.GetKey k1) ∧
      (∀ k0, k0 ∉ addedKeys ops → r.GetKey k0 = Except.ok ("", false)) := by
  obtain ⟨r, hr, hinv⟩ := reachable_inv N hN ops
  obtain ⟨sn, hget, hadd, hinv1⟩ := RouterInv_AddKey N _ r hN hinv key value
  refine ⟨r, _, hr, hadd, ?_, ?_, ?_⟩
  · obtain ⟨sn1, hget1, hk⟩ := RouterInv_GetKey N _ _ hN hinv1 key
    rw [hk]
    simp only [GoMap.get_put_self, Option.some.injEq] at hget1
    subst hget1
    simp [ShardNode.Read, ShardNode.Write, GoMap.get_put_self]
  · intro k1 hne
    obtain ⟨sn1, hget1, hk1⟩ := RouterInv_GetKey N _ _ hN hinv1 k1
    obtain ⟨sn0, hget0, hk0⟩ := RouterInv_GetKey N _ r hN hinv k1
    rw [hk1, hk0]
    by_cases hi : shardIndex N k1 = shardIndex N key
    · rw [hi] at hget1 hget0
      simp only [GoMap.get_put_self, Option.some.injEq] at hget1
      rw [hget] at hget0
      simp only [Option.some.injEq] at hget0
      subst hget1
      subst hget0
      simp [ShardNode.Read, ShardNode.Write, GoMap.get_put_ne _ _ _ _ hne]
    · simp only [GoMap.get_put_ne _ _ _ _ hi] at hget1
      rw [hget0] at hget1
      simp only [Option.some.injEq] at hget1
      rw [hget1]
  · intro k0 hk0
    obtain ⟨sn0, hget0, hg0⟩ := RouterInv_GetKey N _ r hN hinv k0
    obtain ⟨hb0, hb1⟩ := shardIndex_bounds N k0 hN
    obtain ⟨sn2, hget2, _, _, hkeys⟩ := hinv.2.1 _ hb0 hb1
    rw [hget0] at hget2
    simp only [Option.some.injEq] at hget2
    subst hget2
    have hnot : k0 ∉ sn0.Data.keys := by
      intro hm
      exact hk0 (List.mem_toFinset.mp ((hkeys k0).mp hm).1)
    have hnone : sn0.Data.get k0 = none := (GoMap.get_eq_none_iff _ _).mpr hnot
    rw [hg0]
    simp [ShardNode.Read, hnone]

set_option maxRecDepth 100000 in
theorem AddKey_then_GetKey_witness :
    (1 : Int) ≤ 4 ∧
      ((NewRouterComponent 4).run [RouterOp.addKey "user:1" "a"]).bind
        (fun r => (r.AddKey "user:100" "b").bind (fun r1 => r1.GetKey "user:100")) =
        Except.ok ("b", true) ∧
      ∃ r r1, (NewRouterComponent 4).run [RouterOp.addKey "user:1" "a"] = Except.ok r ∧
        r.AddKey "user:100" "b" = Except.ok r1 ∧ r1.GetKey "user:100" = Except.ok ("b", true) :=
  have h := AddKey_then_GetKey 4 (by decide) [RouterOp.addKey "user:1" "a"] "user:100" "b"
  ⟨by decide, rfl, h.elim fun r hr => hr.elim fun r1 h1 => ⟨r, r1, h1.1, h1.2.1, h1.2.2.1⟩⟩

/-- C6: for a router with `N >= 1` shards and every key, the shard index
returned by `GetShard(key)` is the same before and after any sequence of
`GetShard`, `AddKey`, `GetKey` and `PrintDistribution` (per-shard `Stats`)
operations, at any point of the router's life: every such operation succeeds
and leaves the shard count and the indices and `ID`s of the shards map as
`NewRouterComponent(N)` made them. -/
theorem GetShard_stable (N : Int) (hN : 1 ≤ N) (ops1 ops2 : List RouterOp) (key : String) :
    ∃ r1 r2 sn1 sn2, (NewRouterComponent N).run ops1 = Except.ok r1 ∧
      r1.run ops2 = Except.ok r2 ∧
      r1.GetShard key = Except.ok (some sn1, shardIndex N key) ∧
      r2.GetShard key = Except.ok (some sn2, shardIndex N key) ∧
      (NewRouterComponent N).GetShard key =
        Except.ok (some (NewShardNode (shardIndex N key)), shardIndex N key) ∧
      r1.count = N ∧ r2.count = N ∧
      (∀ i, (r1.shards.get i).map ShardNode.ID =
        ((NewRouterComponent N).shards.get i).map ShardNode.ID) ∧
      (∀ i, (r2.shards.get i).map ShardNode.ID =
        ((NewRouterComponent N).shards.get i).map ShardNode.ID) := by
  obtain ⟨r1, hr1, hinv1⟩ := reachable_inv N hN ops1
  obtain ⟨r2, hr2, hinv2⟩ := RouterInv_run N _ r1 hN hinv1 ops2
  obtain ⟨sn1, _, _, hg1⟩ := RouterInv_GetShard N _ r1 hN hinv1 key
  obtain ⟨sn2, _, _, hg2⟩ := RouterInv_GetShard N _ r2 hN hinv2 key
  obtain ⟨sn0, hget0, _, hg0⟩ := RouterInv_GetShard N _ _ hN (RouterInv_new N) key
  obtain ⟨hb0, hb1⟩ := shardIndex_bounds N key hN
  rw [NewRouterComponent_get] at hget0
  simp only [hb0, hb1, and_self, if_true, Option.some.injEq] at hget0
  subst hget0
  refine ⟨r1, r2, sn1, sn2, hr1, hr2, hg1, hg2, hg0, hinv1.1, hinv2.1, ?_, ?_⟩
  · intro i
    rw [RouterInv_ids N _ r1 hinv1 i, RouterInv_ids N _ _ (RouterInv_new N) i]
  · intro i
    rw [RouterInv_ids N _ r2 hinv2 i, RouterInv_ids N _ _ (RouterInv_new N) i]

set_option maxRecDepth 100000 in
theorem GetShard_stable_witness :
    (1 : Int) ≤ 4 ∧
      ((NewRouterComponent 4).GetShard "user:100").map Prod.snd = Except.ok 0 ∧
      (((NewRouterComponent 4).run [RouterOp.addKey "user:100" "v1", RouterOp.getKey "k",
          RouterOp.printDistribution, RouterOp.getShard "user:1"]).bind
        (fun r => r.GetShard "user:100")).map Prod.snd = Except.ok 0 ∧
      ∃ r1 r2 sn1 sn2, (NewRouterComponent 4).run [RouterOp.addKey "user:100" "v1"] =
          Except.ok r1 ∧
        r1.run [RouterOp.getKey "k", RouterOp.printDistribution, RouterOp.getShard "user:1"] =
          Except.ok r2 ∧
        r1.GetShard "user:100" = Except.ok (some sn1, 0) ∧
        r2.GetShard "user:100" = Except.ok (some sn2, 0) :=
  have h := GetShard_stable 4 (by decide) [RouterOp.addKey "user:100" "v1"]
    [RouterOp.getKey "k", RouterOp.printDistribution, RouterOp.getShard "user:1"] "user:100"
  have hi : shardIndex 4 "user:100" = 0 := by decide
  ⟨by decide, rfl, rfl, h.elim fun r1 h1 => h1.elim fun r2 h2 => h2.elim fun sn1 h3 =>
    h3.elim fun sn2 h4 => ⟨r1, r2, sn1, sn2, h4.1, h4.2.1, hi ▸ h4.2.2.1, hi ▸ h4.2.2.2.1⟩⟩

/-- C9: for a router with `N >= 1` shards in any state reached from
`NewRouterComponent(N)` by public operations, every key in the `Data` map of the
shard under index `i` has `ChecksumIEEE(key) mod N = i`; so no key is in the
maps of two shards, and the per-shard `Stats()` counts (one per index
`0 .. N-1`, as `PrintDistribution` reads them) add up to the number of distinct
keys handed to `AddKey`. -/
theorem shard_placement (N : Int) (hN : 1 ≤ N) (ops : List RouterOp) :
    ∃ r counts, (NewRouterComponent N).run ops = Except.ok r ∧
      (∀ i sn, r.shards.get i = some sn → ∀ k ∈ sn.Data.keys,
        (ChecksumIEEE (bytes k) : Int) % N = i) ∧
      (∀ k i j sni snj, r.shards.get i = some sni → r.shards.get j = some snj →
        k ∈ sni.Data.keys → k ∈ snj.Data.keys → i = j) ∧
      (∀ i sn, r.shards.get i = some sn → sn.Data.keys.Nodup) ∧
      r.PrintDistribution = Except.ok counts ∧
      counts.length = N.toNat ∧
      counts.sum = ((addedKeys ops).dedup.length : Int) := by
  obtain ⟨r, hr, hinv⟩ := reachable_inv N hN ops
  obtain ⟨counts, hp, hsum, hlen⟩ := RouterInv_PrintDistribution N _ r hN hinv
  have hplace : ∀ i sn, r.shards.get i = some sn →
      sn.Data.keys.Nodup ∧ ∀ k ∈ sn.Data.keys, shardIndex N k = i := by
    intro i sn hget
    by_cases hi : 0 ≤ i ∧ i < N
    · obtain ⟨sn1, hget1, _, hnd, hkeys⟩ := hinv.2.1 i hi.1 hi.2
      rw [hget] at hget1
      simp only [Option.some.injEq] at hget1
      subst hget1
      exact ⟨hnd, fun k hk => ((hkeys k).mp hk).2⟩
    · rw [hinv.2.2 i hi] at hget
      exact absurd hget (by simp)
  refine ⟨r, counts, hr, ?_, ?_, ?_, hp, hlen, ?_⟩
  · intro i sn hget k hk
    exact (hplace i sn hget).2 k hk
  · intro k i j sni snj hi hj hki hkj
    rw [← (hplace i sni hi).2 k hki, ← (hplace j snj hj).2 k hkj]
  · intro i sn hget
    exact (hplace i sn hget).1
  · rw [hsum, List.card_toFinset]

set_option maxRecDepth 100000 in
theorem shard_placement_witness :
    (1 : Int) ≤ 4 ∧
      ((NewRouterComponent 4).run [RouterOp.addKey "user:100" "a", RouterOp.addKey "user:1" "b",
          RouterOp.addKey "k" "c", RouterOp.addKey "user:100" "d"]).bind
        (fun r => r.PrintDistribution) = Except.ok [1, 1, 1, 0] ∧
      ∃ r counts, (NewRouterComponent 4).run [RouterOp.addKey "user:100" "a",
          RouterOp.addKey "user:1" "b", RouterOp.addKey "k" "c",
          RouterOp.addKey "user:100" "d"] = Except.ok r ∧
        r.PrintDistribution = Except.ok counts ∧ counts.sum = 3 :=
  have h := shard_placement 4 (by decide) [RouterOp.addKey "user:100" "a",
    RouterOp.addKey "user:1" "b", RouterOp.addKey "k" "c", RouterOp.addKey "user:100" "d"]
  ⟨by decide, rfl, h.elim fun r h1 => h1.elim fun counts h2 =>
    ⟨r, counts, h2.1, h2.2.2.2.2.1, h2.2.2.2.2.2.2⟩⟩

/-- C10: `NewRouterComponent(N)` with `N <= 0` builds a router with an empty
shards map and count `N`. On it, for every key: with `N = 0` the index
computation of `GetShard` panics with a division by zero, and so do `AddKey`
and `GetKey`; with `N < 0` `GetShard` returns a nil shard, and `AddKey` and
`GetKey` panic on the nil dereference. On a router as constructed, `GetShard`
returns a present shard, and `AddKey` and `GetKey` return, exactly when
`N >= 1`. -/
theorem nonpositive_shard_count (N : Int) (key value : String) :
    (N ≤ 0 → (NewRouterComponent N).shards = [] ∧ (NewRouterComponent N).count = N) ∧
    (N = 0 →
      (NewRouterComponent N).GetShard key = Except.error Panic.divideByZero ∧
      (NewRouterComponent N).AddKey key value = Except.error Panic.divideByZero ∧
      (NewRouterComponent N).GetKey key = Except.error Panic.divideByZero) ∧
    (N < 0 →
      (∃ i, (NewRouterComponent N).GetShard key = Except.ok (none, i)) ∧
      (NewRouterComponent N).AddKey key value = Except.error Panic.nilDereference ∧
      (NewRouterComponent N).GetKey key = Except.error Panic.nilDereference) ∧
    ((∃ sn i, (NewRouterComponent N).GetShard key = Except.ok (some sn, i)) ↔ 1 ≤ N) ∧
    ((∃ r1, (NewRouterComponent N).AddKey key value = Except.ok r1) ↔ 1 ≤ N) ∧
    ((∃ res, (NewRouterComponent N).GetKey key = Except.ok res) ↔ 1 ≤ N) := by
  have hempty : N ≤ 0 → (NewRouterComponent N).shards = [] := by
    intro h
    have ht : N.toNat = 0 := by omega
    simp [NewRouterComponent, ht, GoMap.empty]
  have hzero : N = 0 →
      (NewRouterComponent N).GetShard key = Except.error Panic.divideByZero ∧
      (NewRouterComponent N).AddKey key value = Except.error Panic.divideByZero ∧
      (NewRouterComponent N).GetKey key = Except.error Panic.divideByZero := by
    intro h
    subst h
    have hg : (NewRouterComponent 0).GetShard key = Except.error Panic.divideByZero := by
      simp [RouterComponent.GetShard, NewRouterComponent]
    refine ⟨hg, ?_, ?_⟩
    · simp only [RouterComponent.AddKey, hg]
    · simp only [RouterComponent.GetKey, hg]
  have hneg : N < 0 →
      (∃ i, (NewRouterComponent N).GetShard key = Except.ok (none, i)) ∧
      (NewRouterComponent N).AddKey key value = Except.error Panic.nilDereference ∧
      (NewRouterComponent N).GetKey key = Except.error Panic.nilDereference := by
    intro h
    have hc : (NewRouterComponent N).count = N := rfl
    have hne : ¬ N = 0 := by omega
    have hg : (NewRouterComponent N).GetShard key =
        Except.ok (none, Int.tmod (toInt (ChecksumIEEE (bytes key) : Int)) N) := by
      simp only [RouterComponent.GetShard, hc, hne, if_false, hempty (le_of_lt h)]
      rfl
    refine ⟨⟨_, hg⟩, ?_, ?_⟩
    · simp only [RouterComponent.AddKey, hg]
    · simp only [RouterComponent.GetKey, hg]
  have hpos : 1 ≤ N →
      (∃ sn i, (NewRouterComponent N).GetShard key = Except.ok (some sn, i)) ∧
      (∃ r1, (NewRouterComponent N).AddKey key value = Except.ok r1) ∧
      (∃ res, (NewRouterComponent N).GetKey key = Except.ok res) := by
    intro h
    obtain ⟨sn, _, _, hg⟩ := RouterInv_GetShard N _ _ h (RouterInv_new N) key
    obtain ⟨sn1, _, ha, _⟩ := RouterInv_AddKey N _ _ h (RouterInv_new N) key value
    obtain ⟨sn2, _, hk⟩ := RouterInv_GetKey N _ _ h (RouterInv_new N) key
    exact ⟨⟨sn, _, hg⟩, ⟨_, ha⟩, ⟨_, hk⟩⟩
  have hcases : N = 0 ∨ N < 0 ∨ 1 ≤ N := by omega
  refine ⟨fun h => ⟨hempty h, rfl⟩, hzero, hneg, ?_, ?_, ?_⟩
  · refine ⟨?_, fun h => (hpos h).1⟩
    rintro ⟨sn, i, hg⟩
    rcases hcases with h | h | h
    · rw [(hzero h).1] at hg
      exact absurd hg (by simp)
    · obtain ⟨j, hj⟩ := (hneg h).1
      rw [hj] at hg
      simp at hg
    · exact h
  · refine ⟨?_, fun h => (hpos h).2.1⟩
    rintro ⟨r1, ha⟩
    rcases hcases with h | h | h
    · rw [(hzero h).2.1] at ha
      exact absurd ha (by simp)
    · rw [(hneg h).2.1] at ha
      exact absurd ha (by simp)
    · exact h
  · refine ⟨?_, fun h => (hpos h).2.2⟩
    rintro ⟨res, hk⟩
    rcases hcases with h | h | h
    · rw [(hzero h).2.2] at hk
      exact absurd hk (by simp)
    · rw [(hneg h).2.2] at hk
      exact absurd hk (by simp)
    · exact h

set_option maxRecDepth 100000 in
theorem nonpositive_shard_count_witness :
    ((0 : Int) ≤ 0 ∧ (NewRouterComponent 0).shards = [] ∧
      (NewRouterComponent 0).GetShard "user:100" = Except.error Panic.divideByZero ∧
      (NewRouterComponent 0).AddKey "user:100" "v1" = Except.error Panic.divideByZero) ∧
    ((-3 : Int) < 0 ∧ (NewRouterComponent (-3)).shards = [] ∧
      (NewRouterComponent (-3)).GetShard "k" = Except.ok (none, 1) ∧
      (NewRouterComponent (-3)).AddKey "k" "v1" = Except.error Panic.nilDereference ∧
      (NewRouterComponent (-3)).GetKey "k" = Except.error Panic.nilDereference) :=
  have h0 := nonpositive_shard_count 0 "user:100" "v1"
  have h3 := nonpositive_shard_count (-3) "k" "v1"
  ⟨⟨by decide, (h0.1 (by decide)).1, (h0.2.1 rfl).1, (h0.2.1 rfl).2.1⟩,
    ⟨by decide, (h3.1 (by decide)).1, rfl, (h3.2.2.1 (by decide)).2.1,
      (h3.2.2.1 (by decide)).2.2⟩⟩

end DSS
